import Mathlib

/-
Verification of the `pen` journaling tool's core logic, shallowly embedded
from the Python source:
  * src/pen/serializing.py  (MarkdownSerializer, JournalSerializer)
  * src/pen/journal.py      (Journal.read/write/add/edit/delete)
  * src/pen/parsing.py      (parse_entry title/body split)
  * src/pen/io/journal.py   (legacy MarkdownSerializer._split_entries)
Python `str` values are modelled as `List Char`.  `SerializationError` is
modelled as `Except Unit`.  `datetime` values are modelled at minute
precision by the `Date` structure, with `strftime`/`strptime` for the fixed
format "%Y-%m-%d %H:%M" modelled by `fmtDate`/`strptime` below.
-/

namespace Pen

/-! ## Character classes -/

/-- Whitespace as recognised by Python's `str.strip` / `re` `\s` on `str`
(the Unicode whitespace set). -/
def isPyWs (c : Char) : Bool :=
  c.toNat = 32 || (9 ≤ c.toNat && c.toNat ≤ 13) || (28 ≤ c.toNat && c.toNat ≤ 31) ||
  c.toNat = 133 || c.toNat = 160 || c.toNat = 5760 ||
  (8192 ≤ c.toNat && c.toNat ≤ 8202) || c.toNat = 8232 || c.toNat = 8233 ||
  c.toNat = 8239 || c.toNat = 8287 || c.toNat = 12288

def isDigitCh (c : Char) : Bool :=
  48 ≤ c.toNat && c.toNat ≤ 57

def digitVal (c : Char) : Nat := c.toNat - 48

/-- Decimal digit character (used to model `strftime` zero-padded fields;
only ever applied to values `< 10`). -/
def digitChar (n : Nat) : Char :=
  if n = 0 then '0' else if n = 1 then '1' else if n = 2 then '2'
  else if n = 3 then '3' else if n = 4 then '4' else if n = 5 then '5'
  else if n = 6 then '6' else if n = 7 then '7' else if n = 8 then '8' else '9'

/-! ## String (List Char) utilities -/

/-- Python `str.lstrip()`. -/
def lstrip (t : List Char) : List Char := t.dropWhile isPyWs

/-- Python `str.rstrip()`. -/
def rstrip (t : List Char) : List Char := ((t.reverse).dropWhile isPyWs).reverse

/-- Python `str.strip()`. -/
def strip (t : List Char) : List Char := rstrip (lstrip t)

/-- Python `str.split("\n")`: the list of segments between newlines
(always non-empty; `""` splits to `[""]`). -/
def splitLines : List Char → List (List Char)
  | [] => [[]]
  | c :: rest =>
    if c = '\n' then [] :: splitLines rest
    else
      match splitLines rest with
      | [] => [[c]]
      | l :: ls => (c :: l) :: ls

/-- Python `sep.join(segments)`. -/
def joinWith (sep : List Char) : List (List Char) → List Char
  | [] => []
  | [l] => l
  | l :: ls => l ++ sep ++ joinWith sep ls

/-- Python `"\n".join(lines)`. -/
def joinLines : List (List Char) → List Char := joinWith ['\n']

/-- Python `s.split(pat, 1)` when `pat` occurs in `s`: splits at the first
occurrence; `none` models the "not found" single-element result (which makes
a two-variable unpacking raise `ValueError`). -/
def splitFirstOn (pat : List Char) : List Char → Option (List Char × List Char)
  | [] => none
  | c :: rest =>
    if (c :: rest).take pat.length = pat then some ([], (c :: rest).drop pat.length)
    else
      match splitFirstOn pat rest with
      | some (a, b) => some (c :: a, b)
      | none => none

/-- Python file-object `readline()` followed by `read()`: everything after
the first newline (or nothing if there is no newline). -/
def dropFirstLine : List Char → List Char
  | [] => []
  | c :: rest => if c = '\n' then rest else dropFirstLine rest

/-- Normalised index for a Python slice bound on a list of length `len`. -/
def pyIdx (i : Int) (len : Nat) : Nat :=
  if i < 0 then (len + i).toNat else min i.toNat len

/-- Python `l[:n]` (with `l[:None] = l`). -/
def pyTake (n : Option Int) (l : List α) : List α :=
  match n with
  | none => l
  | some i => l.take (pyIdx i l.length)

/-- Python `l[n:]` as the REMAINDER kept by the slice assignment
`l[:n] = new` (so the `none` case keeps nothing). -/
def pyDrop (n : Option Int) (l : List α) : List α :=
  match n with
  | none => []
  | some i => l.drop (pyIdx i l.length)

/-! ## Dates at minute precision -/

/-- A `datetime` truncated to minute precision (the only precision the
serialized format "%Y-%m-%d %H:%M" stores). -/
structure Date where
  year : Nat
  month : Nat
  day : Nat
  hour : Nat
  minute : Nat
deriving DecidableEq, Repr

def isLeapYear (y : Nat) : Bool :=
  (y % 4 = 0 && y % 100 ≠ 0) || y % 400 = 0

def daysInMonth (y m : Nat) : Nat :=
  if m = 2 then (if isLeapYear y then 29 else 28)
  else if m = 4 ∨ m = 6 ∨ m = 9 ∨ m = 11 then 30
  else 31

/-- Valid calendar dates as `datetime` accepts them.  The year is restricted
to four digits (9999 is `datetime.MAXYEAR`); the lower bound 1000 matches
the repository's own test strategy (`min_value=datetime(1000, 1, 1)`) and
keeps `strftime("%Y")` four digits on every platform. -/
def ValidDate (d : Date) : Prop :=
  1000 ≤ d.year ∧ d.year ≤ 9999 ∧ 1 ≤ d.month ∧ d.month ≤ 12 ∧
  1 ≤ d.day ∧ d.day ≤ daysInMonth d.year d.month ∧ d.hour ≤ 23 ∧ d.minute ≤ 59

instance (d : Date) : Decidable (ValidDate d) :=
  inferInstanceAs (Decidable (1000 ≤ d.year ∧ d.year ≤ 9999 ∧ 1 ≤ d.month ∧ d.month ≤ 12 ∧
    1 ≤ d.day ∧ d.day ≤ daysInMonth d.year d.month ∧ d.hour ≤ 23 ∧ d.minute ≤ 59))

/-- Lexicographic (chronological) strict order on dates, modelling
`datetime` comparison. -/
def dateLt (a b : Date) : Bool :=
  if a.year ≠ b.year then a.year < b.year
  else if a.month ≠ b.month then a.month < b.month
  else if a.day ≠ b.day then a.day < b.day
  else if a.hour ≠ b.hour then a.hour < b.hour
  else a.minute < b.minute

def pad2 (n : Nat) : List Char := [digitChar (n / 10 % 10), digitChar (n % 10)]

def pad4 (n : Nat) : List Char :=
  [digitChar (n / 1000 % 10), digitChar (n / 100 % 10),
   digitChar (n / 10 % 10), digitChar (n % 10)]

/-- `datetime.strftime("%Y-%m-%d %H:%M")` (zero-padded fields). -/
def fmtDate (d : Date) : List Char :=
  pad4 d.year ++ '-' :: pad2 d.month ++ '-' :: pad2 d.day ++
  ' ' :: pad2 d.hour ++ ':' :: pad2 d.minute

/-- Parse a maximal run of one or two decimal digits (the behaviour of the
`strptime` field patterns for `%m`, `%d`, `%H`, `%M`, whose two-digit
alternative is tried first; a failed range check is performed afterwards,
which agrees with the regex classes because the character after a matched
field is never a digit in this format). -/
def readTwoDigits : List Char → Option (Nat × List Char)
  | [] => none
  | c1 :: rest =>
    if isDigitCh c1 then
      match rest with
      | c2 :: rest2 =>
        if isDigitCh c2 then some (10 * digitVal c1 + digitVal c2, rest2)
        else some (digitVal c1, c2 :: rest2)
      | [] => some (digitVal c1, [])
    else none

/-- Parse exactly four decimal digits (`strptime` `%Y`). -/
def readFourDigits : List Char → Option (Nat × List Char)
  | c1 :: c2 :: c3 :: c4 :: rest =>
    if isDigitCh c1 && isDigitCh c2 && isDigitCh c3 && isDigitCh c4 then
      some (1000 * digitVal c1 + 100 * digitVal c2 + 10 * digitVal c3 + digitVal c4, rest)
    else none
  | _ => none

def expectCh (c : Char) : List Char → Option (List Char)
  | [] => none
  | c1 :: rest => if c1 = c then some rest else none

/-- One or more whitespace characters (a literal space in a `strptime`
format matches `\s+`). -/
def skipWs1 : List Char → Option (List Char)
  | [] => none
  | c :: rest => if isPyWs c then some (rest.dropWhile isPyWs) else none

/-- `datetime.strptime(s, "%Y-%m-%d %H:%M")`: `none` models `ValueError`.
Field ranges (month 1-12, day 1-31 and within the month, hour 0-23, minute
0-59, year ≥ `MINYEAR`) are those enforced by the `_strptime` regexes and
the `datetime` constructor. -/
def strptime (s : List Char) : Option Date := do
  let (y, s) ← readFourDigits s
  let s ← expectCh '-' s
  let (mo, s) ← readTwoDigits s
  let s ← expectCh '-' s
  let (dy, s) ← readTwoDigits s
  let s ← skipWs1 s
  let (h, s) ← readTwoDigits s
  let s ← expectCh ':' s
  let (mi, s) ← readTwoDigits s
  if s = [] ∧ 1 ≤ y ∧ 1 ≤ mo ∧ mo ≤ 12 ∧ 1 ≤ dy ∧ dy ≤ daysInMonth y mo ∧
      h ≤ 23 ∧ mi ≤ 59 then
    some ⟨y, mo, dy, h, mi⟩
  else none

/-! ## Entry

Modelled from the spec: `pen/entry.py` is not among the provided source
files (only its importers are).  Per the spec's data model, an Entry is the
immutable record `{date, title, body}` with ordering by `date` ascending. -/

structure Entry where
  date : Date
  title : List Char
  body : List Char
deriving DecidableEq, Repr

/-! ## MarkdownSerializer (src/pen/serializing.py) -/

/-- The entry marker `"## "`. -/
def marker : List Char := ("## ").data

/-- One line of `re.sub(r"^#", "###", body, flags=re.MULTILINE)`: a line
starting with `#` has that first `#` replaced by `###` (two extra hashes). -/
def escLine (l : List Char) : List Char :=
  if l.head? = some '#' then '#' :: '#' :: l else l

/-- `re.sub(r"^#", "###", body, flags=re.MULTILINE)` (multiline `^` anchors
at the start of each newline-separated segment). -/
def escapeBody (b : List Char) : List Char :=
  joinLines ((splitLines b).map escLine)

/-- One line of `re.sub(r"^##(#+)", r"\g<1>", body, flags=re.MULTILINE)`: a
line starting with at least three `#` loses two of them; other lines are
unchanged. -/
def unescLine (l : List Char) : List Char :=
  if l.take 3 = ['#', '#', '#'] then l.drop 2 else l

/-- `re.sub(r"^##(#+)", r"\g<1>", body, flags=re.MULTILINE)`. -/
def unescapeBody (b : List Char) : List Char :=
  joinLines ((splitLines b).map unescLine)

/-- The part of `MarkdownSerializer.serialize_entry` after the marker:
`f"{date} - {title}"`, plus `"\n" + escaped_body` when the body is truthy. -/
def entryCore (e : Entry) : List Char :=
  fmtDate e.date ++ (" - ").data ++ e.title ++
  (if e.body = [] then [] else '\n' :: escapeBody e.body)

/-- `MarkdownSerializer.serialize_entry` (a trailing newline is always
appended). -/
def serialize_entry (e : Entry) : List Char :=
  marker ++ entryCore e ++ ['\n']

/-- The body of `MarkdownSerializer.deserialize_entry` after the marker
check and strip: split off the title line, split it on the first `" - "`,
parse the date, reject an empty title, unescape the remaining lines. -/
def parseStripped (s : List Char) : Except Unit Entry :=
  match splitLines s with
  | [] => .error ()
  | titleLine :: bodyLines =>
    match splitFirstOn ((" - ").data) titleLine with
    | none => .error ()
    | some (dateStr, title) =>
      match strptime dateStr with
      | none => .error ()
      | some d =>
        if title = [] then .error ()
        else .ok ⟨d, title, unescapeBody (joinLines bodyLines)⟩

/-- `MarkdownSerializer.deserialize_entry`: requires the text to start with
the marker, then strips the remainder and parses it. -/
def deserialize_entry (t : List Char) : Except Unit Entry :=
  if t.take 3 = marker then parseStripped (strip (t.drop 3))
  else .error ()

/-- A line beginning a new entry: one on which the `re.MULTILINE` pattern
`^## ` matches. -/
def isMarkerLine (l : List Char) : Bool := l.take 3 = marker

/-- Helper for `split_entries`: walking the lines from the right, collect
runs of lines each headed by a marker line; `.1` is the residue of lines
before the first marker (discarded, like `re.split`'s first segment). -/
def groupAux : List (List Char) → List (List Char) × List (List (List Char))
  | [] => ([], [])
  | l :: ls =>
    if isMarkerLine l then ([], (l :: (groupAux ls).1) :: (groupAux ls).2)
    else (l :: (groupAux ls).1, (groupAux ls).2)

/-- Reassemble each run into one fragment.  A fragment that is followed by
another keeps the newline that preceded the next marker (as `re.split`
leaves it in the preceding segment). -/
def reattach : List (List (List Char)) → List (List Char)
  | [] => []
  | [r] => [joinLines r]
  | r :: r2 :: rs => (joinLines r ++ ['\n']) :: reattach (r2 :: rs)

/-- `MarkdownSerializer.split_entries`: `re.split(r"^## ", text, MULTILINE)`,
drop the segment before the first marker, and re-attach `"## "` to each
remaining fragment.  Note: this version raises nothing. -/
def split_entries (t : List Char) : List (List Char) :=
  reattach (groupAux (splitLines t)).2

/-! ## Legacy serializer (src/pen/io/journal.py, MarkdownSerializer) -/

/-- `MarkdownSerializer._split_entries` of the legacy `pen.io.journal`
module: raises `SerializationError` when the left-stripped text does not
begin with `"## "`; otherwise splits like the above but does NOT re-attach
the marker. -/
def io_split_entries (t : List Char) : Except Unit (List (List Char)) :=
  if ¬ ((lstrip t).take 3 = marker) then .error ()
  else .ok ((reattach (groupAux (splitLines t)).2).map (fun f => f.drop 3))

/-! ## JournalSerializer (src/pen/serializing.py) -/

/-- `JournalSerializer.serialize` over the already-reversed list: the list
of fragments in file order joined by a blank line. -/
def serializeAsc (gs : List Entry) : List Char :=
  joinWith ['\n', '\n'] (gs.map serialize_entry)

/-- `JournalSerializer.serialize`: expects entries newest-to-oldest and
writes them REVERSED (so the file text is oldest-first). -/
def serialize (entries : List Entry) : List Char :=
  serializeAsc entries.reverse

/-- The fragment sequence produced by `JournalSerializer.deserialize`
before any entry is parsed: empty text yields no fragments; otherwise the
stripped text is split and the fragment list reversed.  Parsing each
fragment on demand models the generator's laziness. -/
def deserializeFragments (t : List Char) : List (List Char) :=
  if t = [] then [] else (split_entries (strip t)).reverse

/-- Forcing a prefix of the lazy generator: parse fragments left to right,
stopping at the first `SerializationError` (as `list(islice(...))` does). -/
def parseEach (f : α → Except Unit β) : List α → Except Unit (List β)
  | [] => .ok []
  | a :: l =>
    match f a with
    | .error e => .error e
    | .ok b =>
      match parseEach f l with
      | .error e => .error e
      | .ok bs => .ok (b :: bs)

/-! ## Journal (src/pen/journal.py) -/

/-- The first line `Journal.write` emits for the default markdown type. -/
def fileHeader : List Char := ("file_type: pen-default-markdown\n").data

/-- `Journal.write`: file-type line then the serialized entries. -/
def Journal.write (entries : List Entry) : List Char :=
  fileHeader ++ serialize entries

/-- `last_n = abs(last_n) if last_n else None` (so 0 behaves like None). -/
def normLastN : Option Int → Option Nat
  | none => none
  | some i => if i = 0 then none else some i.natAbs

/-- `Journal.read`: skip the file-type line, lazily deserialize, take the
first `last_n` entries of the generator. -/
def Journal.read (lastN : Option Int) (fileText : List Char) : Except Unit (List Entry) :=
  let frags := deserializeFragments (dropFirstLine fileText)
  let frags :=
    match normLastN lastN with
    | none => frags
    | some n => frags.take n
  parseEach deserialize_entry frags

/-- `bisect.insort` on the ascending list, comparing entries by date
(Modelled from the spec: `Entry` ordering is by `date` ascending; equal
dates insert to the right, as `insort` does). -/
def insortAsc (x : Entry) : List Entry → List Entry
  | [] => [x]
  | e :: es => if dateLt x.date e.date then x :: e :: es else e :: insortAsc x es

/-- `Journal.add`: read all (newest first), reverse to ascending, sorted
insert, reverse back, rewrite the whole file. -/
def Journal.add (entry : Entry) (fileText : List Char) : Except Unit (List Char) :=
  match Journal.read none fileText with
  | .error e => .error e
  | .ok es => .ok (Journal.write (insortAsc entry es.reverse).reverse)

/-- `Journal.edit` as a function of the file text, the text coming back
from the editor, and the user's answer to the deletion confirmation.
Returns the resulting file content and whether it was (re)written; a
declined confirmation exits before writing, leaving the file as it was. -/
def Journal.edit (lastN : Option Int) (confirm : Bool) (editorOut fileText : List Char) :
    Except Unit (List Char × Bool) :=
  match Journal.read none fileText with
  | .error e => .error e
  | .ok entries =>
    let toEdit := pyTake lastN entries
    match parseEach deserialize_entry (deserializeFragments editorOut) with
    | .error e => .error e
    | .ok edited =>
      if edited.length < toEdit.length ∧ confirm = false then
        .ok (fileText, false)
      else
        .ok (Journal.write (edited ++ pyDrop lastN entries), true)

/-- `Journal.delete` with the per-entry confirmation modelled as a
predicate (`true` = user confirms the deletion).  An empty journal is a
no-op.  Kept entries are the unconfirmed ones among the first `last_n`,
followed by the untouched remainder; the file is rewritten. -/
def Journal.delete (lastN : Option Int) (confirmFn : Entry → Bool) (fileText : List Char) :
    Except Unit (List Char × Bool) :=
  match Journal.read none fileText with
  | .error e => .error e
  | .ok entries =>
    if entries = [] then .ok (fileText, false)
    else
      let keep := (pyTake lastN entries).filter (fun e => !(confirmFn e))
      .ok (Journal.write (keep ++ pyDrop lastN entries), true)

/-! ## parse_entry (src/pen/parsing.py) -/

def isPunct (c : Char) : Bool := c = '?' || c = '!' || c = '.'

/-- `re.search(r"([?!.]+\s+|\n)", text).end()`: the end index of the first
match, scanning positions left to right; at each position a punctuation run
followed by at least one whitespace character is tried first, then a bare
newline. -/
def findSepEnd : List Char → Option Nat
  | [] => none
  | c :: rest =>
    if isPunct c then
      let p := (rest.takeWhile isPunct).length
      let w := ((rest.drop p).takeWhile isPyWs).length
      if 0 < w then some (1 + p + w)
      else (findSepEnd rest).map (· + 1)
    else if c = '\n' then some 1
    else (findSepEnd rest).map (· + 1)

/-- The title/body split of `parse_entry` (lines 13-15): text up to the end
of the separator match, stripped, versus the rest, stripped; no match makes
the whole stripped text the title. -/
def parseEntrySplit (text : List Char) : List Char × List Char :=
  match findSepEnd text with
  | some e => (strip (text.take e), strip (text.drop e))
  | none => (strip text, [])

/-- Modelled from the spec: the length of a separator match starting at the
head of `s`, where `wsRequired` selects between the code's rule (whitespace
after the punctuation run is required) and the claim's reading (whitespace
optional).  A bare newline always matches. -/
def specSepLen (wsRequired : Bool) (s : List Char) : Option Nat :=
  match s with
  | [] => none
  | c :: rest =>
    if isPunct c then
      let p := (rest.takeWhile isPunct).length
      let w := ((rest.drop p).takeWhile isPyWs).length
      if wsRequired && w = 0 then none else some (1 + p + w)
    else if c = '\n' then some 1
    else none

/-- Modelled from the spec: the first position (if any) at which a
separator match begins. -/
def specSepStart (wsRequired : Bool) (t : List Char) : Option Nat :=
  (List.range t.length).find? (fun i => (specSepLen wsRequired (t.drop i)).isSome)

/-- Modelled from the spec: split the raw composed text at the first
separator occurrence into a trimmed title candidate (up to and including
the separator) and a trimmed body; with no separator the whole trimmed
text is the title and the body is empty. -/
def specSplitTitleBody (wsRequired : Bool) (t : List Char) : List Char × List Char :=
  match specSepStart wsRequired t with
  | some i =>
    let e := i + (specSepLen wsRequired (t.drop i)).getD 0
    (strip (t.take e), strip (t.drop e))
  | none => (strip t, [])

/-! ## Fragment layout of a serialized journal (proof-layer descriptions) -/

/-- The fragments that `split_entries` cuts a serialized journal into, in
file order: every fragment but the last carries its own trailing newline,
the blank separator line and the newline before the next marker. -/
def decorate : List Entry → List (List Char)
  | [] => []
  | [g] => [marker ++ entryCore g]
  | g :: g2 :: rest => ((marker ++ entryCore g) ++ ['\n', '\n', '\n']) :: decorate (g2 :: rest)

/-- The line runs `groupAux` recovers from a serialized journal, in file
order: each entry's lines, plus (between entries) the empty line ending the
fragment and the blank separator line. -/
def entryRuns : List Entry → List (List (List Char))
  | [] => []
  | [g] => [splitLines (marker ++ entryCore g)]
  | g :: g2 :: rest =>
    (splitLines (marker ++ entryCore g) ++ [[], []]) :: entryRuns (g2 :: rest)

/-! ## Validity predicates -/

/-- Whether the last character of a string, if any, is not whitespace. -/
def lastNotWs (t : List Char) : Bool :=
  match t.getLast? with
  | some c => !isPyWs c
  | none => true

/-- Entries whose serialized form survives the deserializer's stripping:
a valid date, a title that is non-empty after trimming and contains no
newline, and no trailing whitespace on what ends the fragment (the title
when the body is empty, the body otherwise). -/
def SafeEntry (e : Entry) : Prop :=
  ValidDate e.date ∧ strip e.title ≠ [] ∧ '\n' ∉ e.title ∧
  (e.body = [] → lastNotWs e.title = true) ∧ lastNotWs e.body = true

instance (e : Entry) : Decidable (SafeEntry e) :=
  inferInstanceAs (Decidable (ValidDate e.date ∧ strip e.title ≠ [] ∧ '\n' ∉ e.title ∧
    (e.body = [] → lastNotWs e.title = true) ∧ lastNotWs e.body = true))

/-- Entries stored newest first (dates non-increasing). -/
def SortedDesc (es : List Entry) : Prop :=
  List.Chain' (fun a b => dateLt a.date b.date = false) es

/-- Entries in ascending (oldest first, non-decreasing) date order. -/
def SortedAsc (es : List Entry) : Prop :=
  List.Chain' (fun a b => dateLt b.date a.date = false) es

instance (es : List Entry) : Decidable (SortedDesc es) :=
  inferInstanceAs (Decidable (List.Chain' (fun (a b : Entry) => dateLt a.date b.date = false) es))

instance (es : List Entry) : Decidable (SortedAsc es) :=
  inferInstanceAs (Decidable (List.Chain' (fun (a b : Entry) => dateLt b.date a.date = false) es))

/-! ## Basic lemmas: digits -/

theorem isDigitCh_digitChar (n : Nat) : isDigitCh (digitChar n) = true := by
  unfold digitChar; split_ifs <;> decide

theorem digitVal_digitChar {n : Nat} (h : n < 10) : digitVal (digitChar n) = n := by
  interval_cases n <;> rfl

theorem digitChar_ne_space (n : Nat) : digitChar n ≠ ' ' := by
  unfold digitChar; split_ifs <;> decide

theorem isPyWs_digitChar (n : Nat) : isPyWs (digitChar n) = false := by
  unfold digitChar; split_ifs <;> decide

theorem digitChar_ne_nl (n : Nat) : digitChar n ≠ '\n' := by
  unfold digitChar; split_ifs <;> decide

/-! ## Basic lemmas: splitLines / joinLines -/

theorem splitLines_ne_nil (t : List Char) : splitLines t ≠ [] := by
  induction t with
  | nil => simp [splitLines]
  | cons c rest ih =>
    simp only [splitLines]
    split
    · simp
    · split
      · simp
      · simp

theorem splitLines_exists_cons (t : List Char) : ∃ l ls, splitLines t = l :: ls := by
  have h := splitLines_ne_nil t
  cases hsp : splitLines t with
  | nil => exact absurd hsp h
  | cons l ls => exact ⟨l, ls, rfl⟩

theorem splitLines_cons_nl (rest : List Char) :
    splitLines ('\n' :: rest) = [] :: splitLines rest := by
  simp [splitLines]

theorem splitLines_cons_of_ne {c : Char} {rest l : List Char} {ls : List (List Char)}
    (hc : c ≠ '\n') (hsp : splitLines rest = l :: ls) :
    splitLines (c :: rest) = (c :: l) :: ls := by
  simp [splitLines, if_neg hc, hsp]

theorem splitLines_append_nl (a b : List Char) :
    splitLines (a ++ '\n' :: b) = splitLines a ++ splitLines b := by
  induction a with
  | nil => rw [List.nil_append, splitLines_cons_nl]; rfl
  | cons c rest ih =>
    by_cases hc : c = '\n'
    · subst hc
      rw [List.cons_append, splitLines_cons_nl, splitLines_cons_nl, ih, List.cons_append]
    · obtain ⟨l, ls, hsp2⟩ := splitLines_exists_cons rest
      have hih : splitLines (rest ++ '\n' :: b) = l :: (ls ++ splitLines b) := by
        rw [ih, hsp2]; simp
      rw [List.cons_append, splitLines_cons_of_ne hc hih, splitLines_cons_of_ne hc hsp2,
        List.cons_append]

theorem splitLines_of_no_nl {a : List Char} (h : '\n' ∉ a) : splitLines a = [a] := by
  induction a with
  | nil => rfl
  | cons c rest ih =>
    simp only [List.mem_cons, not_or] at h
    have hne : c ≠ '\n' := fun hc => h.1 hc.symm
    rw [splitLines_cons_of_ne hne (ih h.2)]

theorem splitLines_prepend_no_nl {a t : List Char} {l : List Char} {ls : List (List Char)}
    (h : '\n' ∉ a) (hsp : splitLines t = l :: ls) :
    splitLines (a ++ t) = (a ++ l) :: ls := by
  induction a with
  | nil => simpa using hsp
  | cons c rest ih =>
    simp only [List.mem_cons, not_or] at h
    have hne : c ≠ '\n' := fun hc => h.1 hc.symm
    rw [List.cons_append, splitLines_cons_of_ne hne (ih h.2), List.cons_append]

theorem joinLines_splitLines (t : List Char) : joinLines (splitLines t) = t := by
  induction t with
  | nil => rfl
  | cons c rest ih =>
    obtain ⟨l, ls, hsp⟩ := splitLines_exists_cons rest
    rw [hsp] at ih
    by_cases hc : c = '\n'
    · subst hc
      rw [splitLines_cons_nl, hsp]
      simpa [joinLines, joinWith] using ih
    · rw [splitLines_cons_of_ne hc hsp]
      cases ls with
      | nil => simpa [joinLines, joinWith] using ih
      | cons l2 ls2 => simpa [joinLines, joinWith] using ih

theorem mem_splitLines_no_nl {t l : List Char} (h : l ∈ splitLines t) : '\n' ∉ l := by
  induction t generalizing l with
  | nil =>
    simp only [splitLines, List.mem_singleton] at h
    subst h; simp
  | cons c rest ih =>
    by_cases hc : c = '\n'
    · subst hc
      rw [splitLines_cons_nl, List.mem_cons] at h
      cases h with
      | inl h0 => subst h0; simp
      | inr hm => exact ih hm
    · obtain ⟨l2, ls2, hsp⟩ := splitLines_exists_cons rest
      rw [splitLines_cons_of_ne hc hsp, List.mem_cons] at h
      cases h with
      | inl h0 =>
        subst h0
        intro hmem
        rcases List.mem_cons.mp hmem with h1 | h1
        · exact hc h1.symm
        · exact ih (l := l2) (by rw [hsp]; exact List.mem_cons_self _ _) h1
      | inr hm => exact ih (by rw [hsp]; exact List.mem_cons_of_mem _ hm)

theorem splitLines_joinLines {ls : List (List Char)} (hne : ls ≠ [])
    (h : ∀ l ∈ ls, '\n' ∉ l) : splitLines (joinLines ls) = ls := by
  induction ls with
  | nil => exact absurd rfl hne
  | cons l rest ih =>
    cases rest with
    | nil =>
      simp only [joinLines, joinWith]
      exact splitLines_of_no_nl (h l (List.mem_cons_self _ _))
    | cons l2 rest2 =>
      have hrest : splitLines (joinLines (l2 :: rest2)) = l2 :: rest2 :=
        ih (by simp) (fun x hx => h x (List.mem_cons_of_mem _ hx))
      have : joinLines (l :: l2 :: rest2) = l ++ '\n' :: joinLines (l2 :: rest2) := by
        simp [joinLines, joinWith]
      rw [this, splitLines_append_nl, splitLines_of_no_nl (h l (List.mem_cons_self _ _)), hrest]
      simp

theorem joinLines_append_single (A : List (List Char)) (x : List Char) (h : A ≠ []) :
    joinLines (A ++ [x]) = joinLines A ++ '\n' :: x := by
  induction A with
  | nil => exact absurd rfl h
  | cons l rest ih =>
    cases rest with
    | nil => simp [joinLines, joinWith]
    | cons l2 rest2 =>
      have h2 := ih (by simp)
      simp only [joinLines, joinWith, List.cons_append, List.append_eq] at h2 ⊢
      rw [h2]
      simp

/-! ## Basic lemmas: strip -/

theorem lstrip_cons_not_ws {c : Char} {t : List Char} (h : isPyWs c = false) :
    lstrip (c :: t) = c :: t := by
  simp [lstrip, List.dropWhile_cons, h]

theorem rstrip_append_ws {c : Char} (t : List Char) (h : isPyWs c = true) :
    rstrip (t ++ [c]) = rstrip t := by
  simp [rstrip, List.dropWhile_cons, h]

theorem rstrip_append_all_ws {suffix : List Char} (t : List Char)
    (h : ∀ c ∈ suffix, isPyWs c = true) : rstrip (t ++ suffix) = rstrip t := by
  induction suffix using List.reverseRecOn with
  | nil => simp
  | append_singleton rest c ih =>
    rw [← List.append_assoc, rstrip_append_ws _ (h c (by simp))]
    exact ih (fun x hx => h x (by simp [hx]))

theorem rstrip_of_last_not_ws {t : List Char}
    (h : ∀ c, t.getLast? = some c → isPyWs c = false) : rstrip t = t := by
  induction t using List.reverseRecOn with
  | nil => rfl
  | append_singleton t0 x _ =>
    have hx : isPyWs x = false := h x (by simp)
    simp [rstrip, List.dropWhile_cons, hx]

theorem rstrip_ne_nil_of_mem_not_ws {t : List Char} {c : Char} (hm : c ∈ t)
    (hc : isPyWs c = false) : rstrip t ≠ [] := by
  intro h
  have : ∀ x ∈ t.reverse, isPyWs x = true := by
    have := List.dropWhile_eq_nil_iff.mp (by
      simpa [rstrip] using congrArg List.reverse h)
    simpa using this
  have := this c (by simpa using hm)
  rw [hc] at this
  exact Bool.false_ne_true this

theorem rstrip_append_right {a b : List Char} (h : rstrip b ≠ []) :
    rstrip (a ++ b) = a ++ rstrip b := by
  have hdw : b.reverse.dropWhile isPyWs ≠ [] := by
    intro h0
    exact h (by simp [rstrip, h0])
  simp only [rstrip, List.reverse_append]
  rw [List.dropWhile_append]
  simp only [List.isEmpty_iff, hdw, if_neg]
  simp

theorem strip_nil : strip ([] : List Char) = [] := rfl

theorem strip_clean {t : List Char} (suffix : List Char)
    (hh : ∀ c, t.head? = some c → isPyWs c = false)
    (hl : ∀ c, t.getLast? = some c → isPyWs c = false)
    (hs : ∀ c ∈ suffix, isPyWs c = true) :
    strip (t ++ suffix) = t := by
  cases t with
  | nil =>
    have : ∀ c ∈ suffix, isPyWs c = true := hs
    unfold strip lstrip
    rw [List.nil_append, List.dropWhile_eq_nil_iff.mpr (fun x hx => this x hx)]
    rfl
  | cons c0 t0 =>
    unfold strip
    rw [List.cons_append, lstrip_cons_not_ws (hh c0 rfl), ← List.cons_append,
      rstrip_append_all_ws _ hs, rstrip_of_last_not_ws hl]

/-! ## Basic lemmas: splitFirstOn and the date separator -/

theorem sep_data : (" - ").data = [' ', '-', ' '] := rfl

theorem digitChar_ne_dash (n : Nat) : digitChar n ≠ '-' := by
  unfold digitChar; split_ifs <;> decide

theorem nl_ne_digitChar (n : Nat) : '\n' ≠ digitChar n := by
  unfold digitChar; split_ifs <;> decide

theorem sfo_base (t : List Char) :
    splitFirstOn ((" - ").data) (' ' :: '-' :: ' ' :: t) = some ([], t) := rfl

theorem sfo_step_fst_ne_space {c : Char} (hc : c ≠ ' ') {rest a b : List Char}
    (h : splitFirstOn ((" - ").data) rest = some (a, b)) :
    splitFirstOn ((" - ").data) (c :: rest) = some (c :: a, b) := by
  have hne : ¬ ((c :: rest).take ((" - ").data).length = (" - ").data) := by
    rw [sep_data]
    intro he
    rw [show ([' ', '-', ' '] : List Char).length = 3 from rfl] at he
    rw [List.take_succ_cons] at he
    exact hc (List.cons.injEq .. ▸ he).1
  rw [splitFirstOn, if_neg hne, h]

theorem sfo_step_snd_not_dash {c d : Char} (hd : d ≠ '-') {rest a b : List Char}
    (h : splitFirstOn ((" - ").data) (d :: rest) = some (a, b)) :
    splitFirstOn ((" - ").data) (c :: d :: rest) = some (c :: a, b) := by
  have hne : ¬ ((c :: d :: rest).take ((" - ").data).length = (" - ").data) := by
    rw [sep_data]
    intro he
    rw [show ([' ', '-', ' '] : List Char).length = 3 from rfl] at he
    rw [List.take_succ_cons, List.take_succ_cons] at he
    have := (List.cons.injEq .. ▸ he).2
    exact hd (List.cons.injEq .. ▸ this).1
  rw [splitFirstOn, if_neg hne, h]

theorem splitFirstOn_sep_fmtDate (d : Date) (t : List Char) :
    splitFirstOn ((" - ").data) (fmtDate d ++ (" - ").data ++ t) = some (fmtDate d, t) := by
  obtain ⟨y, mo, dy, hh, mi⟩ := d
  rw [List.append_assoc, sep_data]
  simp only [fmtDate, pad4, pad2, List.cons_append, List.nil_append]
  refine sfo_step_fst_ne_space (digitChar_ne_space _) ?_
  refine sfo_step_fst_ne_space (digitChar_ne_space _) ?_
  refine sfo_step_fst_ne_space (digitChar_ne_space _) ?_
  refine sfo_step_fst_ne_space (digitChar_ne_space _) ?_
  refine sfo_step_fst_ne_space (by decide) ?_
  refine sfo_step_fst_ne_space (digitChar_ne_space _) ?_
  refine sfo_step_fst_ne_space (digitChar_ne_space _) ?_
  refine sfo_step_fst_ne_space (by decide) ?_
  refine sfo_step_fst_ne_space (digitChar_ne_space _) ?_
  refine sfo_step_fst_ne_space (digitChar_ne_space _) ?_
  refine sfo_step_snd_not_dash (digitChar_ne_dash _) ?_
  refine sfo_step_fst_ne_space (digitChar_ne_space _) ?_
  refine sfo_step_fst_ne_space (digitChar_ne_space _) ?_
  refine sfo_step_fst_ne_space (by decide) ?_
  refine sfo_step_fst_ne_space (digitChar_ne_space _) ?_
  refine sfo_step_fst_ne_space (digitChar_ne_space _) ?_
  exact sfo_base t

/-! ## fmtDate and strptime round-trip -/

theorem fmtDate_head_not_ws (d : Date) :
    ∀ c, (fmtDate d).head? = some c → isPyWs c = false := by
  intro c h
  rw [show (fmtDate d).head? = some (digitChar (d.year / 1000 % 10)) from rfl] at h
  simp only [Option.some.injEq] at h
  subst h
  exact isPyWs_digitChar _

theorem fmtDate_no_nl (d : Date) : '\n' ∉ fmtDate d := by
  simp [fmtDate, pad4, pad2, List.mem_append, List.mem_cons, nl_ne_digitChar]

theorem readFourDigits_pad4 {n : Nat} (h : n ≤ 9999) (rest : List Char) :
    readFourDigits (pad4 n ++ rest) = some (n, rest) := by
  simp only [pad4, List.cons_append, List.nil_append]
  rw [readFourDigits, if_pos (by simp [isDigitCh_digitChar])]
  rw [digitVal_digitChar (by omega), digitVal_digitChar (by omega),
    digitVal_digitChar (by omega), digitVal_digitChar (by omega)]
  have : 1000 * (n / 1000 % 10) + 100 * (n / 100 % 10) + 10 * (n / 10 % 10) + n % 10 = n := by
    omega
  rw [this]

theorem readTwoDigits_pad2 {n : Nat} (h : n ≤ 99) (rest : List Char) :
    readTwoDigits (pad2 n ++ rest) = some (n, rest) := by
  simp only [pad2, List.cons_append, List.nil_append]
  rw [readTwoDigits]
  rw [if_pos (isDigitCh_digitChar _)]
  simp only [isDigitCh_digitChar, if_pos]
  rw [digitVal_digitChar (by omega), digitVal_digitChar (by omega)]
  have : 10 * (n / 10 % 10) + n % 10 = n := by omega
  rw [this]

theorem expectCh_cons (c : Char) (rest : List Char) : expectCh c (c :: rest) = some rest := by
  simp [expectCh]

theorem daysInMonth_le_31 (y m : Nat) : daysInMonth y m ≤ 31 := by
  unfold daysInMonth; split_ifs <;> omega

theorem skipWs1_space {rest : List Char} {c : Char} (hh : rest.head? = some c)
    (hc : isPyWs c = false) : skipWs1 (' ' :: rest) = some rest := by
  cases rest with
  | nil => simp at hh
  | cons c0 rest0 =>
    simp only [List.head?_cons, Option.some.injEq] at hh
    subst hh
    rw [skipWs1, if_pos (by decide)]
    rw [List.dropWhile_cons_of_neg (by simp [hc])]

theorem strptime_fmtDate {d : Date} (hv : ValidDate d) : strptime (fmtDate d) = some d := by
  obtain ⟨y, mo, dy, hh, mi⟩ := d
  unfold ValidDate at hv
  dsimp only at hv
  obtain ⟨v1, v2, v3, v4, v5, v6, v7, v8⟩ := hv
  unfold strptime
  rw [show fmtDate ⟨y, mo, dy, hh, mi⟩ =
      pad4 y ++ '-' :: (pad2 mo ++ '-' :: (pad2 dy ++ ' ' :: (pad2 hh ++ ':' :: pad2 mi)))
    from rfl]
  rw [readFourDigits_pad4 (by omega)]
  simp only [Option.bind_eq_bind, Option.some_bind]
  rw [expectCh_cons]
  simp only [Option.bind_eq_bind, Option.some_bind]
  rw [readTwoDigits_pad2 (by omega)]
  simp only [Option.bind_eq_bind, Option.some_bind]
  rw [expectCh_cons]
  simp only [Option.bind_eq_bind, Option.some_bind]
  rw [readTwoDigits_pad2 (by have := daysInMonth_le_31 y mo; omega)]
  simp only [Option.bind_eq_bind, Option.some_bind]
  rw [skipWs1_space (by rw [show (pad2 hh ++ ':' :: pad2 mi).head? =
      some (digitChar (hh / 10 % 10)) from rfl]) (isPyWs_digitChar _)]
  simp only [Option.bind_eq_bind, Option.some_bind]
  rw [readTwoDigits_pad2 (by omega)]
  simp only [Option.bind_eq_bind, Option.some_bind]
  rw [expectCh_cons]
  simp only [Option.bind_eq_bind, Option.some_bind]
  rw [show pad2 mi = pad2 mi ++ [] from (List.append_nil _).symm,
    readTwoDigits_pad2 (by omega)]
  simp only [Option.bind_eq_bind, Option.some_bind]
  rw [if_pos]
  exact ⟨by trivial, by omega, v3, v4, v5, v6, v7, v8⟩

/-! ## Escape / unescape lemmas -/

theorem unescLine_escLine (l : List Char) : unescLine (escLine l) = l := by
  by_cases h : l.head? = some '#'
  · obtain ⟨t, rfl⟩ : ∃ t, l = '#' :: t := by
      cases l with
      | nil => simp at h
      | cons c t =>
        simp only [List.head?_cons, Option.some.injEq] at h
        exact ⟨t, by rw [h]⟩
    rw [escLine, if_pos (by simp), unescLine, if_pos (by simp)]
    rfl
  · rw [escLine, if_neg h, unescLine, if_neg ?_]
    intro he
    cases l with
    | nil => simp at he
    | cons c t =>
      rw [List.take_succ_cons] at he
      exact h (by simp [(List.cons.injEq .. ▸ he).1])

theorem escLine_not_marker (l : List Char) : isMarkerLine (escLine l) = false := by
  by_cases h : l.head? = some '#'
  · obtain ⟨t, rfl⟩ : ∃ t, l = '#' :: t := by
      cases l with
      | nil => simp at h
      | cons c t =>
        simp only [List.head?_cons, Option.some.injEq] at h
        exact ⟨t, by rw [h]⟩
    rw [escLine, if_pos (by simp)]
    rfl
  · rw [escLine, if_neg h]
    cases l with
    | nil => rfl
    | cons c t =>
      have hc : c ≠ '#' := fun hcc => h (by simp [hcc])
      simp only [isMarkerLine, List.take_succ_cons, decide_eq_false_iff_not]
      intro he
      rw [show marker = '#' :: '#' :: [' '] from rfl] at he
      exact hc (List.cons.injEq .. ▸ he).1

theorem escLine_no_nl {l : List Char} (h : '\n' ∉ l) : '\n' ∉ escLine l := by
  unfold escLine
  split
  · simp only [List.mem_cons, not_or]
    exact ⟨by decide, by decide, h⟩
  · exact h

theorem getLast?_cons_congr {c : Char} {A B : List Char} (h : A.getLast? = B.getLast?) :
    (c :: A).getLast? = (c :: B).getLast? := by
  rw [List.getLast?_cons, List.getLast?_cons, h]

theorem joinLines_map_escLine_getLast? (Ls : List (List Char)) :
    (joinLines (Ls.map escLine)).getLast? = (joinLines Ls).getLast? := by
  induction Ls with
  | nil => rfl
  | cons l rest ih =>
    cases rest with
    | nil =>
      show (escLine l).getLast? = l.getLast?
      unfold escLine
      split
      · next h =>
        obtain ⟨t, rfl⟩ : ∃ t, l = '#' :: t := by
          cases l with
          | nil => simp at h
          | cons c t =>
            simp only [List.head?_cons, Option.some.injEq] at h
            exact ⟨t, by rw [h]⟩
        simp
      · rfl
    | cons l2 rest2 =>
      have hL : joinLines ((l :: l2 :: rest2).map escLine) =
          escLine l ++ '\n' :: joinLines ((l2 :: rest2).map escLine) := by
        simp [joinLines, joinWith]
      have hR : joinLines (l :: l2 :: rest2) = l ++ '\n' :: joinLines (l2 :: rest2) := by
        simp [joinLines, joinWith]
      rw [hL, hR, List.getLast?_append_of_ne_nil _ (by simp),
        List.getLast?_append_of_ne_nil _ (by simp)]
      exact getLast?_cons_congr ih

theorem escapeBody_getLast? (b : List Char) : (escapeBody b).getLast? = b.getLast? := by
  unfold escapeBody
  rw [joinLines_map_escLine_getLast?, joinLines_splitLines]

theorem splitLines_escapeBody (b : List Char) :
    splitLines (escapeBody b) = (splitLines b).map escLine := by
  unfold escapeBody
  exact splitLines_joinLines (by simp [splitLines_ne_nil])
    (fun l hl => by
      obtain ⟨l0, hl0, rfl⟩ := List.mem_map.mp hl
      exact escLine_no_nl (mem_splitLines_no_nl hl0))

theorem unescape_escape (b : List Char) : unescapeBody (escapeBody b) = b := by
  unfold unescapeBody
  rw [splitLines_escapeBody, List.map_map]
  have h : (splitLines b).map (unescLine ∘ escLine) = (splitLines b).map id :=
    List.map_congr_left (fun a _ => unescLine_escLine a)
  rw [h, List.map_id, joinLines_splitLines]

/-! ## Entry round-trip -/

theorem strip_ne_nil_imp {t : List Char} (h : strip t ≠ []) : t ≠ [] := by
  intro h0; rw [h0] at h; exact h strip_nil

theorem sep_no_nl : '\n' ∉ (" - ").data := by decide

theorem entryCore_head (e : Entry) :
    (entryCore e).head? = some (digitChar (e.date.year / 1000 % 10)) := rfl

theorem entryCore_head_not_ws (e : Entry) :
    ∀ c, (entryCore e).head? = some c → isPyWs c = false := by
  intro c h
  rw [entryCore_head] at h
  simp only [Option.some.injEq] at h
  subst h
  exact isPyWs_digitChar _

theorem escapeBody_ne_nil {b : List Char} (hb : b ≠ []) : escapeBody b ≠ [] := by
  intro h0
  have h1 := escapeBody_getLast? b
  rw [h0] at h1
  simp only [List.getLast?_nil] at h1
  exact hb (List.getLast?_eq_none_iff.mp h1.symm)

theorem lastNotWs_spec {t : List Char} (h : lastNotWs t = true) :
    ∀ c, t.getLast? = some c → isPyWs c = false := by
  intro c hc
  unfold lastNotWs at h
  rw [hc] at h
  simpa using h

theorem entryCore_last_not_ws (e : Entry) (hs : SafeEntry e) :
    ∀ c, (entryCore e).getLast? = some c → isPyWs c = false := by
  obtain ⟨d, title, body⟩ := e
  obtain ⟨hv, ht, htn, hte, hbe⟩ := hs
  dsimp only at ht htn hte hbe
  have htne : title ≠ [] := strip_ne_nil_imp ht
  intro c h
  by_cases hb : body = []
  · rw [entryCore] at h
    dsimp only at h
    rw [if_pos hb, List.append_nil, List.getLast?_append_of_ne_nil _ htne] at h
    exact lastNotWs_spec (hte hb) c h
  · rw [entryCore] at h
    dsimp only at h
    rw [if_neg hb] at h
    have hescne : escapeBody body ≠ [] := escapeBody_ne_nil hb
    rw [List.getLast?_append_of_ne_nil _ (by simp),
      show ('\n' :: escapeBody body) = ['\n'] ++ escapeBody body from rfl,
      List.getLast?_append_of_ne_nil _ hescne, escapeBody_getLast?] at h
    exact lastNotWs_spec hbe c h

theorem parseStripped_core (e : Entry) (hs : SafeEntry e) :
    parseStripped (entryCore e) = .ok e := by
  obtain ⟨d, title, body⟩ := e
  obtain ⟨hv, ht, htn, hte, hbe⟩ := hs
  dsimp only at hv ht htn hte hbe
  have htne : title ≠ [] := strip_ne_nil_imp ht
  have hAnl : '\n' ∉ fmtDate d ++ (" - ").data ++ title := by
    intro hm
    rcases List.mem_append.mp hm with hm1 | hm1
    · rcases List.mem_append.mp hm1 with hm2 | hm2
      · exact fmtDate_no_nl d hm2
      · exact sep_no_nl hm2
    · exact htn hm1
  by_cases hb : body = []
  · subst hb
    rw [show entryCore ⟨d, title, []⟩ = fmtDate d ++ (" - ").data ++ title from by
      rw [entryCore]; dsimp only; rw [if_pos rfl, List.append_nil]]
    unfold parseStripped
    rw [splitLines_of_no_nl hAnl]
    dsimp only
    rw [splitFirstOn_sep_fmtDate]
    dsimp only
    rw [strptime_fmtDate hv]
    dsimp only
    rw [if_neg htne]
    rfl
  · rw [show entryCore ⟨d, title, body⟩ =
        (fmtDate d ++ (" - ").data ++ title) ++ '\n' :: escapeBody body from by
      rw [entryCore]; dsimp only; rw [if_neg hb]]
    unfold parseStripped
    rw [splitLines_append_nl, splitLines_of_no_nl hAnl, List.cons_append, List.nil_append]
    dsimp only
    rw [splitFirstOn_sep_fmtDate]
    dsimp only
    rw [strptime_fmtDate hv]
    dsimp only
    rw [if_neg htne]
    rw [show joinLines (splitLines (escapeBody body)) = escapeBody body from
      joinLines_splitLines _]
    rw [unescape_escape]

theorem take3_marker_append (x : List Char) : (marker ++ x).take 3 = marker := rfl

theorem drop3_marker_append (x : List Char) : (marker ++ x).drop 3 = x := rfl

/-- Deserializing a serialized fragment, possibly decorated with trailing
whitespace (as the fragments cut out of a journal text are), restores the
entry. -/
theorem deserialize_entry_decorated (e : Entry) (hs : SafeEntry e) (ws : List Char)
    (hws : ∀ c ∈ ws, isPyWs c = true) :
    deserialize_entry ((marker ++ entryCore e) ++ ws) = .ok e := by
  unfold deserialize_entry
  rw [List.append_assoc, take3_marker_append, if_pos rfl, drop3_marker_append,
    strip_clean ws (entryCore_head_not_ws e) (entryCore_last_not_ws e hs) hws,
    parseStripped_core e hs]

theorem serialize_entry_eq (e : Entry) :
    serialize_entry e = (marker ++ entryCore e) ++ ['\n'] := by
  unfold serialize_entry
  rfl

/-! ## Grouping lines back into fragments -/

theorem groupAux_nonmarker_prefix {A L : List (List Char)}
    (hA : ∀ x ∈ A, isMarkerLine x = false) :
    groupAux (A ++ L) = (A ++ (groupAux L).1, (groupAux L).2) := by
  induction A with
  | nil => simp
  | cons l rest ih =>
    rw [List.cons_append, groupAux, if_neg (by simp [hA l (List.mem_cons_self _ _)]),
      ih (fun x hx => hA x (List.mem_cons_of_mem _ hx))]
    simp

theorem groupAux_cons_run {m : List Char} (hm : isMarkerLine m = true)
    {A L : List (List Char)} (hA : ∀ x ∈ A, isMarkerLine x = false)
    (hL : (groupAux L).1 = []) :
    groupAux ((m :: A) ++ L) = ([], (m :: A) :: (groupAux L).2) := by
  rw [List.cons_append, groupAux, if_pos hm, groupAux_nonmarker_prefix hA, hL, List.append_nil]

theorem splitLines_marker_core (g : Entry) (hT : '\n' ∉ g.title) :
    ∃ l tail, splitLines (marker ++ entryCore g) = l :: tail ∧ isMarkerLine l = true ∧
      (∀ x ∈ tail, isMarkerLine x = false) := by
  obtain ⟨d, title, body⟩ := g
  dsimp only at hT
  have hAnl : '\n' ∉ marker ++ (fmtDate d ++ (" - ").data ++ title) := by
    intro hm
    rcases List.mem_append.mp hm with hm0 | hm1
    · exact absurd hm0 (by decide)
    rcases List.mem_append.mp hm1 with hm2 | hm2
    · rcases List.mem_append.mp hm2 with hm3 | hm3
      · exact fmtDate_no_nl d hm3
      · exact sep_no_nl hm3
    · exact hT hm2
  have hmk : isMarkerLine (marker ++ (fmtDate d ++ (" - ").data ++ title)) = true := by
    simp [isMarkerLine, take3_marker_append]
  by_cases hb : body = []
  · refine ⟨marker ++ (fmtDate d ++ (" - ").data ++ title), [], ?_, hmk, by simp⟩
    rw [show entryCore ⟨d, title, body⟩ = fmtDate d ++ (" - ").data ++ title from by
      rw [entryCore]; dsimp only; rw [if_pos hb, List.append_nil]]
    exact splitLines_of_no_nl hAnl
  · refine ⟨marker ++ (fmtDate d ++ (" - ").data ++ title),
      (splitLines body).map escLine, ?_, hmk, ?_⟩
    · rw [show marker ++ entryCore ⟨d, title, body⟩ =
          (marker ++ (fmtDate d ++ (" - ").data ++ title)) ++ '\n' :: escapeBody body from by
        rw [entryCore]; dsimp only; rw [if_neg hb, ← List.append_assoc]]
      rw [splitLines_append_nl, splitLines_of_no_nl hAnl, splitLines_escapeBody,
        List.cons_append, List.nil_append]
    · intro x hx
      obtain ⟨x0, _, rfl⟩ := List.mem_map.mp hx
      exact escLine_not_marker x0

theorem entryCore_ne_nil (g : Entry) : entryCore g ≠ [] := by
  intro h0
  have h1 := entryCore_head g
  rw [h0] at h1
  simp at h1

theorem rstrip_serialize_entry (g : Entry) (hs : SafeEntry g) :
    rstrip (serialize_entry g) = marker ++ entryCore g := by
  rw [serialize_entry_eq, rstrip_append_ws _ (by decide)]
  apply rstrip_of_last_not_ws
  intro c h
  rw [List.getLast?_append_of_ne_nil _ (entryCore_ne_nil g)] at h
  exact entryCore_last_not_ws g hs c h

theorem serializeAsc_head (g : Entry) (gs : List Entry) :
    ∃ r, serializeAsc (g :: gs) = '#' :: r := by
  cases gs with
  | nil => exact ⟨_, rfl⟩
  | cons g2 rest => exact ⟨_, rfl⟩

theorem rstrip_serializeAsc_ne_nil (g : Entry) (gs : List Entry) :
    rstrip (serializeAsc (g :: gs)) ≠ [] := by
  obtain ⟨r, hr⟩ := serializeAsc_head g gs
  rw [hr]
  exact rstrip_ne_nil_of_mem_not_ws (List.mem_cons_self _ _) (by decide)

theorem joinWith_cons_cons (sep : List Char) (l l2 : List Char) (ls : List (List Char)) :
    joinWith sep (l :: l2 :: ls) = l ++ sep ++ joinWith sep (l2 :: ls) := rfl

theorem serializeAsc_cons_cons (g g2 : Entry) (gs : List Entry) :
    serializeAsc (g :: g2 :: gs) =
      serialize_entry g ++ '\n' :: '\n' :: serializeAsc (g2 :: gs) := by
  rw [serializeAsc, List.map_cons, List.map_cons, joinWith_cons_cons]
  rw [serializeAsc, List.map_cons]
  simp [List.append_assoc]

theorem rstrip_serializeAsc_cons (g g2 : Entry) (gs : List Entry) :
    rstrip (serializeAsc (g :: g2 :: gs)) =
      serialize_entry g ++ '\n' :: '\n' :: rstrip (serializeAsc (g2 :: gs)) := by
  rw [serializeAsc_cons_cons]
  have h2 : rstrip (serializeAsc (g2 :: gs)) ≠ [] := rstrip_serializeAsc_ne_nil g2 gs
  rw [show serialize_entry g ++ '\n' :: '\n' :: serializeAsc (g2 :: gs) =
      (serialize_entry g ++ ['\n', '\n']) ++ serializeAsc (g2 :: gs) from by simp,
    rstrip_append_right h2]
  simp

theorem splitLines_serialize_entry (g : Entry) :
    splitLines (serialize_entry g) = splitLines (marker ++ entryCore g) ++ [[]] := by
  rw [serialize_entry_eq, show (['\n'] : List Char) = '\n' :: [] from rfl,
    splitLines_append_nl]
  rfl

theorem groupAux_serializeAsc (gs : List Entry) (hne : gs ≠ [])
    (hs : ∀ g ∈ gs, SafeEntry g) :
    groupAux (splitLines (rstrip (serializeAsc gs))) = ([], entryRuns gs) := by
  induction gs with
  | nil => exact absurd rfl hne
  | cons g rest ih =>
    cases rest with
    | nil =>
      rw [show serializeAsc [g] = serialize_entry g from by
          rw [serializeAsc]; rfl,
        rstrip_serialize_entry g (hs g (List.mem_cons_self _ _))]
      obtain ⟨l, tail, hsp, hm, htail⟩ :=
        splitLines_marker_core g (hs g (List.mem_cons_self _ _)).2.2.1
      rw [hsp, show (l :: tail) = (l :: tail) ++ [] from by simp,
        groupAux_cons_run hm htail (by rfl)]
      rw [entryRuns, hsp]
      rfl
    | cons g2 rest2 =>
      have hsrest : ∀ x ∈ g2 :: rest2, SafeEntry x :=
        fun x hx => hs x (List.mem_cons_of_mem _ hx)
      have ihr := ih (by simp) hsrest
      rw [rstrip_serializeAsc_cons, splitLines_append_nl, splitLines_cons_nl,
        splitLines_serialize_entry]
      obtain ⟨l, tail, hsp, hm, htail⟩ :=
        splitLines_marker_core g (hs g (List.mem_cons_self _ _)).2.2.1
      rw [hsp]
      have hshape : ((l :: tail) ++ [[]]) ++ [] :: splitLines (rstrip (serializeAsc (g2 :: rest2))) =
          (l :: (tail ++ [[], []])) ++ splitLines (rstrip (serializeAsc (g2 :: rest2))) := by
        simp
      rw [hshape, groupAux_cons_run hm
        (fun x hx => by
          rcases List.mem_append.mp hx with hx1 | hx1
          · exact htail x hx1
          · rcases List.mem_cons.mp hx1 with rfl | hx2
            · rfl
            · rcases List.mem_cons.mp hx2 with rfl | hx3
              · rfl
              · simp at hx3)
        (by rw [ihr])]
      rw [ihr, entryRuns, hsp]
      simp

theorem entryRuns_ne_nil (g : Entry) (gs : List Entry) : entryRuns (g :: gs) ≠ [] := by
  cases gs <;> simp [entryRuns]

theorem reattach_entryRuns (gs : List Entry) :
    reattach (entryRuns gs) = decorate gs := by
  induction gs with
  | nil => rfl
  | cons g rest ih =>
    cases rest with
    | nil =>
      rw [entryRuns, reattach, joinLines_splitLines, decorate]
    | cons g2 rest2 =>
      rw [entryRuns]
      obtain ⟨r2, rs2, hr2⟩ : ∃ r2 rs2, entryRuns (g2 :: rest2) = r2 :: rs2 := by
        cases hE : entryRuns (g2 :: rest2) with
        | nil => exact absurd hE (entryRuns_ne_nil g2 rest2)
        | cons r2 rs2 => exact ⟨r2, rs2, rfl⟩
      rw [hr2, reattach, ← hr2, ih, decorate]
      have hA1 : splitLines (marker ++ entryCore g) ≠ [] := splitLines_ne_nil _
      have hj1 : joinLines ((splitLines (marker ++ entryCore g) ++ [[]])) =
          (marker ++ entryCore g) ++ ['\n'] := by
        rw [joinLines_append_single _ _ hA1, joinLines_splitLines]
      have hj2 : joinLines ((splitLines (marker ++ entryCore g) ++ [[]]) ++ [[]]) =
          (marker ++ entryCore g) ++ ['\n', '\n'] := by
        rw [joinLines_append_single _ _ (by simp [hA1]), hj1]
        simp
      rw [show splitLines (marker ++ entryCore g) ++ [[], []] =
          (splitLines (marker ++ entryCore g) ++ [[]]) ++ [[]] from by simp, hj2]
      simp

theorem split_entries_strip_serializeAsc (gs : List Entry) (hne : gs ≠ [])
    (hs : ∀ g ∈ gs, SafeEntry g) :
    split_entries (strip (serializeAsc gs)) = decorate gs := by
  obtain ⟨g, rest, rfl⟩ : ∃ g rest, gs = g :: rest := by
    cases gs with
    | nil => exact absurd rfl hne
    | cons g rest => exact ⟨g, rest, rfl⟩
  obtain ⟨r, hr⟩ := serializeAsc_head g rest
  rw [strip, hr, lstrip_cons_not_ws (by decide), ← hr]
  unfold split_entries
  rw [groupAux_serializeAsc _ hne hs]
  exact reattach_entryRuns _

/-! ## Parsing fragment sequences -/

theorem parseEach_cons_ok {f : α → Except Unit β} {a : α} {b : β} {l : List α}
    {xs : List β} (ha : f a = .ok b) (hl : parseEach f l = .ok xs) :
    parseEach f (a :: l) = .ok (b :: xs) := by
  rw [parseEach, ha, hl]

theorem parseEach_cons_inv {f : α → Except Unit β} {a : α} {l : List α} {ys : List β}
    (h : parseEach f (a :: l) = .ok ys) :
    ∃ b xs, f a = .ok b ∧ parseEach f l = .ok xs ∧ ys = b :: xs := by
  rw [parseEach] at h
  cases hfa : f a with
  | error e => rw [hfa] at h; exact absurd h (by simp)
  | ok b =>
    rw [hfa] at h
    cases hl : parseEach f l with
    | error e => rw [hl] at h; exact absurd h (by simp)
    | ok xs =>
      rw [hl] at h
      simp only [Except.ok.injEq] at h
      exact ⟨b, xs, rfl, rfl, h.symm⟩

theorem parseEach_append_ok {f : α → Except Unit β} {l1 l2 : List α} {xs ys : List β}
    (h1 : parseEach f l1 = .ok xs) (h2 : parseEach f l2 = .ok ys) :
    parseEach f (l1 ++ l2) = .ok (xs ++ ys) := by
  induction l1 generalizing xs with
  | nil =>
    rw [parseEach] at h1
    simp only [Except.ok.injEq] at h1
    subst h1
    simpa using h2
  | cons a l ih =>
    obtain ⟨b, xs0, ha, hl, rfl⟩ := parseEach_cons_inv h1
    rw [List.cons_append, List.cons_append]
    exact parseEach_cons_ok ha (ih hl)

theorem parseEach_reverse_ok {f : α → Except Unit β} {l : List α} {xs : List β}
    (h : parseEach f l = .ok xs) : parseEach f l.reverse = .ok xs.reverse := by
  induction l generalizing xs with
  | nil =>
    rw [parseEach] at h
    simp only [Except.ok.injEq] at h
    subst h
    rfl
  | cons a l ih =>
    obtain ⟨b, xs0, ha, hl, rfl⟩ := parseEach_cons_inv h
    rw [List.reverse_cons, List.reverse_cons]
    exact parseEach_append_ok (ih hl) (parseEach_cons_ok ha rfl)

theorem parseEach_take_ok {f : α → Except Unit β} {l : List α} {xs : List β}
    (h : parseEach f l = .ok xs) (n : Nat) :
    parseEach f (l.take n) = .ok (xs.take n) := by
  induction l generalizing xs n with
  | nil =>
    rw [parseEach] at h
    simp only [Except.ok.injEq] at h
    subst h
    simp [parseEach]
  | cons a l ih =>
    obtain ⟨b, xs0, ha, hl, rfl⟩ := parseEach_cons_inv h
    cases n with
    | zero => rfl
    | succ n0 =>
      rw [List.take_succ_cons, List.take_succ_cons]
      exact parseEach_cons_ok ha (ih hl n0)

theorem decorate_parse (gs : List Entry) (hs : ∀ g ∈ gs, SafeEntry g) :
    parseEach deserialize_entry (decorate gs) = .ok gs := by
  induction gs with
  | nil => rfl
  | cons g rest ih =>
    cases rest with
    | nil =>
      have hd := deserialize_entry_decorated g (hs g (List.mem_cons_self _ _)) [] (by simp)
      rw [List.append_nil] at hd
      rw [decorate]
      exact parseEach_cons_ok hd rfl
    | cons g2 rest2 =>
      have hd := deserialize_entry_decorated g (hs g (List.mem_cons_self _ _))
        ['\n', '\n', '\n'] (by decide)
      rw [decorate]
      exact parseEach_cons_ok hd (ih (fun x hx => hs x (List.mem_cons_of_mem _ hx)))

theorem decorate_length (gs : List Entry) : (decorate gs).length = gs.length := by
  induction gs with
  | nil => rfl
  | cons g rest ih =>
    cases rest with
    | nil => rfl
    | cons g2 rest2 => simpa [decorate] using ih

/-! ## Reading back a written journal -/

theorem dropFirstLine_header (s : List Char) : dropFirstLine (fileHeader ++ s) = s := rfl

theorem serializeAsc_ne_nil (g : Entry) (gs : List Entry) : serializeAsc (g :: gs) ≠ [] := by
  obtain ⟨r, hr⟩ := serializeAsc_head g gs
  rw [hr]
  simp

theorem deserializeFragments_serialize (es : List Entry) (hne : es ≠ [])
    (hs : ∀ e ∈ es, SafeEntry e) :
    deserializeFragments (serialize es) = (decorate es.reverse).reverse := by
  have hrevne : es.reverse ≠ [] := by simpa using hne
  obtain ⟨g, rest, hg⟩ : ∃ g rest, es.reverse = g :: rest := by
    cases hE : es.reverse with
    | nil => exact absurd hE hrevne
    | cons g rest => exact ⟨g, rest, rfl⟩
  have hsne : serialize es ≠ [] := by
    rw [serialize, hg]
    exact serializeAsc_ne_nil g rest
  unfold deserializeFragments
  rw [if_neg hsne, serialize,
    split_entries_strip_serializeAsc _ hrevne (fun x hx => hs x (List.mem_reverse.mp hx))]

theorem parse_deserializeFragments_serialize (es : List Entry)
    (hs : ∀ e ∈ es, SafeEntry e) :
    parseEach deserialize_entry (deserializeFragments (serialize es)) = .ok es := by
  cases hE : es with
  | nil => rfl
  | cons e0 rest =>
    rw [← hE, deserializeFragments_serialize es (by rw [hE]; simp) hs]
    have h1 := decorate_parse es.reverse (fun x hx => hs x (List.mem_reverse.mp hx))
    have h2 := parseEach_reverse_ok h1
    rwa [List.reverse_reverse] at h2

theorem read_none_write (es : List Entry) (hs : ∀ e ∈ es, SafeEntry e) :
    Journal.read none (Journal.write es) = .ok es := by
  unfold Journal.read Journal.write
  rw [dropFirstLine_header]
  exact parse_deserializeFragments_serialize es hs

theorem read_take_write (es : List Entry) (hs : ∀ e ∈ es, SafeEntry e)
    {n : Nat} (hn : 0 < n) :
    Journal.read (some (n : Int)) (Journal.write es) = .ok (es.take n) := by
  unfold Journal.read Journal.write
  rw [dropFirstLine_header]
  have hnorm : normLastN (some (n : Int)) = some n := by
    rw [normLastN, if_neg (by omega)]
    simp
  rw [hnorm]
  exact parseEach_take_ok (parse_deserializeFragments_serialize es hs) n

/-! ## A malformed fragment at the start of the file (laziness) -/

theorem split_entries_strip_garbage (gs : List Entry) (hne : gs ≠ [])
    (hs : ∀ g ∈ gs, SafeEntry g) :
    split_entries (strip (("## garbage\n\n").data ++ serializeAsc gs)) =
      ("## garbage\n\n").data :: decorate gs := by
  obtain ⟨g, rest, rfl⟩ : ∃ g rest, gs = g :: rest := by
    cases gs with
    | nil => exact absurd rfl hne
    | cons g rest => exact ⟨g, rest, rfl⟩
  have hl : lstrip (("## garbage\n\n").data ++ serializeAsc (g :: rest)) =
      ("## garbage\n\n").data ++ serializeAsc (g :: rest) := by
    rw [show ("## garbage\n\n").data ++ serializeAsc (g :: rest) =
        '#' :: (("# garbage\n\n").data ++ serializeAsc (g :: rest)) from rfl]
    exact lstrip_cons_not_ws (by decide)
  rw [strip, hl, rstrip_append_right (rstrip_serializeAsc_ne_nil g rest)]
  unfold split_entries
  rw [show ("## garbage\n\n").data ++ rstrip (serializeAsc (g :: rest)) =
      ("## garbage").data ++ '\n' :: ('\n' :: rstrip (serializeAsc (g :: rest))) from rfl]
  rw [splitLines_append_nl, splitLines_of_no_nl (by decide), splitLines_cons_nl]
  rw [show (([("## garbage").data] : List (List Char)) ++
      [] :: splitLines (rstrip (serializeAsc (g :: rest)))) =
      (("## garbage").data :: [[]]) ++ splitLines (rstrip (serializeAsc (g :: rest))) from by
    simp]
  rw [groupAux_cons_run (by decide) (by decide)
    (by rw [groupAux_serializeAsc (g :: rest) (by simp) hs])]
  rw [groupAux_serializeAsc (g :: rest) (by simp) hs]
  obtain ⟨r2, rs2, hr2⟩ : ∃ r2 rs2, entryRuns (g :: rest) = r2 :: rs2 := by
    cases hE : entryRuns (g :: rest) with
    | nil => exact absurd hE (entryRuns_ne_nil g rest)
    | cons r2 rs2 => exact ⟨r2, rs2, rfl⟩
  dsimp only
  rw [hr2, reattach, ← hr2, reattach_entryRuns]
  rfl

theorem read_take_garbage (es : List Entry) (hs : ∀ e ∈ es, SafeEntry e)
    {n : Nat} (hn : 0 < n) (hle : n ≤ es.length) :
    Journal.read (some (n : Int))
      (fileHeader ++ (("## garbage\n\n").data ++ serialize es)) = .ok (es.take n) := by
  have hesne : es ≠ [] := by intro h0; rw [h0] at hle; simp at hle; omega
  have hrevne : es.reverse ≠ [] := by simpa using hesne
  unfold Journal.read
  rw [dropFirstLine_header]
  have hnorm : normLastN (some (n : Int)) = some n := by
    rw [normLastN, if_neg (by omega)]
    simp
  rw [hnorm]
  have htne : ("## garbage\n\n").data ++ serialize es ≠ [] := by
    rw [show ("## garbage\n\n").data ++ serialize es =
        '#' :: (("# garbage\n\n").data ++ serialize es) from rfl]
    simp
  unfold deserializeFragments
  rw [if_neg htne, serialize,
    split_entries_strip_garbage _ hrevne (fun x hx => hs x (List.mem_reverse.mp hx))]
  rw [List.reverse_cons]
  have hlen : n ≤ (decorate es.reverse).reverse.length := by
    rw [List.length_reverse, decorate_length, List.length_reverse]
    exact hle
  have h1 := decorate_parse es.reverse (fun x hx => hs x (List.mem_reverse.mp hx))
  have h2 := parseEach_reverse_ok h1
  rw [List.reverse_reverse] at h2
  show parseEach deserialize_entry
      (List.take n ((decorate es.reverse).reverse ++ [("## garbage\n\n").data])) =
    Except.ok (List.take n es)
  rw [List.take_append_of_le_length hlen]
  exact parseEach_take_ok h2 n

/-! ## Python slice lemmas -/

theorem pyTake_append_pyDrop (n : Option Int) (l : List α) :
    pyTake n l ++ pyDrop n l = l := by
  cases n with
  | none => simp [pyTake, pyDrop]
  | some i => simp [pyTake, pyDrop, List.take_append_drop]

/-! ## parse_entry: scan versus first-position search -/

theorem find?_map_succ (l : List Nat) (p : Nat → Bool) :
    (l.map (· + 1)).find? p = (l.find? (fun i => p (i + 1))).map (· + 1) := by
  induction l with
  | nil => rfl
  | cons a l ih =>
    rw [List.map_cons, List.find?_cons, List.find?_cons]
    cases hp : p (a + 1) <;> simp [hp, ih]

theorem find?_range_succ (n : Nat) (p : Nat → Bool) :
    (List.range (n + 1)).find? p =
      if p 0 then some 0
      else ((List.range n).find? (fun i => p (i + 1))).map (· + 1) := by
  rw [List.range_succ_eq_map, List.find?_cons]
  cases hp : p 0 with
  | false =>
    rw [if_neg (by simp [hp])]
    rw [show (List.range n).map Nat.succ = (List.range n).map (· + 1) from by
      simp [Nat.succ_eq_add_one]]
    exact find?_map_succ _ _
  | true => rw [if_pos (by simp [hp])]

theorem specSepStart_cons_some {c : Char} {rest : List Char} {k : Nat}
    (h : specSepLen true (c :: rest) = some k) :
    specSepStart true (c :: rest) = some 0 := by
  unfold specSepStart
  rw [show (c :: rest).length = rest.length + 1 from rfl, find?_range_succ,
    if_pos (by simp [List.drop, h])]

theorem specSepStart_cons_none {c : Char} {rest : List Char}
    (h : specSepLen true (c :: rest) = none) :
    specSepStart true (c :: rest) = (specSepStart true rest).map (· + 1) := by
  unfold specSepStart
  rw [show (c :: rest).length = rest.length + 1 from rfl, find?_range_succ,
    if_neg (by simp [List.drop, h])]
  rfl

theorem findSepEnd_cons (c : Char) (rest : List Char) :
    findSepEnd (c :: rest) =
      if isPunct c then
        (if 0 < ((rest.drop ((rest.takeWhile isPunct).length)).takeWhile isPyWs).length then
          some (1 + (rest.takeWhile isPunct).length +
            ((rest.drop ((rest.takeWhile isPunct).length)).takeWhile isPyWs).length)
        else (findSepEnd rest).map (· + 1))
      else if c = '\n' then some 1 else (findSepEnd rest).map (· + 1) := rfl

theorem specSepLen_cons (b : Bool) (c : Char) (rest : List Char) :
    specSepLen b (c :: rest) =
      if isPunct c then
        (if b && ((rest.drop ((rest.takeWhile isPunct).length)).takeWhile isPyWs).length = 0
         then none
         else some (1 + (rest.takeWhile isPunct).length +
           ((rest.drop ((rest.takeWhile isPunct).length)).takeWhile isPyWs).length))
      else if c = '\n' then some 1 else none := rfl

theorem findSepEnd_eq_body (c : Char) (rest : List Char) :
    findSepEnd (c :: rest) =
      match specSepLen true (c :: rest) with
      | some k => some k
      | none => (findSepEnd rest).map (· + 1) := by
  rw [findSepEnd_cons, specSepLen_cons]
  by_cases hp : isPunct c = true
  · rw [if_pos hp, if_pos hp]
    by_cases hw : 0 < ((rest.drop ((rest.takeWhile isPunct).length)).takeWhile isPyWs).length
    · rw [if_pos hw, if_neg (by simp only [Bool.true_and, decide_eq_true_eq]; omega)]
    · rw [if_neg hw, if_pos (by simp only [Bool.true_and, decide_eq_true_eq]; omega)]
  · rw [if_neg hp, if_neg hp]
    by_cases hn : c = '\n'
    · rw [if_pos hn, if_pos hn]
    · rw [if_neg hn, if_neg hn]

theorem findSepEnd_spec (t : List Char) :
    findSepEnd t =
      match specSepStart true t with
      | none => none
      | some i => some (i + (specSepLen true (t.drop i)).getD 0) := by
  induction t with
  | nil => rfl
  | cons c rest ih =>
    rw [findSepEnd_eq_body]
    cases hsl : specSepLen true (c :: rest) with
    | some k =>
      rw [specSepStart_cons_some hsl]
      dsimp only
      rw [show (c :: rest).drop 0 = c :: rest from rfl, hsl]
      simp
    | none =>
      rw [specSepStart_cons_none hsl]
      rw [ih]
      cases hss : specSepStart true rest with
      | none => rfl
      | some i =>
        rw [show Option.map (fun x => x + 1) (some i) = some (i + 1) from rfl,
          show Option.map (fun x => x + 1)
            (some (i + (specSepLen true (rest.drop i)).getD 0)) =
            some (i + (specSepLen true (rest.drop i)).getD 0 + 1) from rfl]
        dsimp only
        rw [show List.drop (i + 1) (c :: rest) = rest.drop i from rfl]
        congr 1
        omega

theorem parseEntrySplit_eq_specSplit (t : List Char) :
    parseEntrySplit t = specSplitTitleBody true t := by
  unfold parseEntrySplit specSplitTitleBody
  rw [findSepEnd_spec t]
  cases h : specSepStart true t with
  | none => rfl
  | some i => rfl

/-! ## Claims -/

/-- C1 (counterexample): the round-trip is NOT exact for every valid entry
with an arbitrary body.  The entry with body `" "` (valid title, minute
date) comes back with body `""`, because `deserialize_entry` strips the
fragment and so discards trailing whitespace of the body. -/
theorem C1_roundtrip_cex :
    deserialize_entry (serialize_entry
        ⟨⟨2019, 1, 1, 9, 30⟩, ("title").data, (" ").data⟩) =
      .ok ⟨⟨2019, 1, 1, 9, 30⟩, ("title").data, []⟩ ∧
    (⟨⟨2019, 1, 1, 9, 30⟩, ("title").data, []⟩ : Entry) ≠
      ⟨⟨2019, 1, 1, 9, 30⟩, ("title").data, (" ").data⟩ :=
  ⟨rfl, by decide⟩

/-- C1 (amended): for every valid Entry (valid minute-precision date, title
non-empty after trimming) whose title contains no newline, and which does
not end in whitespace — the title when the body is empty, the body
otherwise — `deserialize_entry (serialize_entry e)` returns exactly `e`. -/
theorem C1_roundtrip (e : Entry) (hs : SafeEntry e) :
    deserialize_entry (serialize_entry e) = .ok e := by
  rw [serialize_entry_eq]
  exact deserialize_entry_decorated e hs ['\n'] (by decide)

/-- C1 (witness): the round trip at a concrete safe entry with an escaped
body line. -/
theorem C1_roundtrip_witness :
    SafeEntry ⟨⟨2019, 1, 1, 9, 30⟩, ("hello world").data, ("#escaped\nbody").data⟩ ∧
    deserialize_entry (serialize_entry
        ⟨⟨2019, 1, 1, 9, 30⟩, ("hello world").data, ("#escaped\nbody").data⟩) =
      .ok ⟨⟨2019, 1, 1, 9, 30⟩, ("hello world").data, ("#escaped\nbody").data⟩ :=
  ⟨by decide, C1_roundtrip _ (by decide)⟩

/-- C2 (counterexample): the file does NOT store entries newest-first.
Serializing the entries dated 2020-03-01, 2020-02-01, 2020-01-01 (given
newest-to-oldest, as `write` passes them) produces fragments that parse, in
file order, to the 2020-01-01, 2020-02-01, 2020-03-01 entries — ascending,
not the claimed descending order. -/
theorem C2_file_order_cex :
    parseEach deserialize_entry (split_entries (strip (serialize
        [⟨⟨2020, 3, 1, 0, 0⟩, ("c").data, []⟩, ⟨⟨2020, 2, 1, 0, 0⟩, ("b").data, []⟩,
         ⟨⟨2020, 1, 1, 0, 0⟩, ("a").data, []⟩]))) =
      .ok [⟨⟨2020, 1, 1, 0, 0⟩, ("a").data, []⟩, ⟨⟨2020, 2, 1, 0, 0⟩, ("b").data, []⟩,
           ⟨⟨2020, 3, 1, 0, 0⟩, ("c").data, []⟩] ∧
    ([⟨⟨2020, 1, 1, 0, 0⟩, ("a").data, []⟩, ⟨⟨2020, 2, 1, 0, 0⟩, ("b").data, []⟩,
      ⟨⟨2020, 3, 1, 0, 0⟩, ("c").data, []⟩] : List Entry) ≠
      [⟨⟨2020, 3, 1, 0, 0⟩, ("c").data, []⟩, ⟨⟨2020, 2, 1, 0, 0⟩, ("b").data, []⟩,
       ⟨⟨2020, 1, 1, 0, 0⟩, ("a").data, []⟩] :=
  ⟨rfl, by decide⟩

/-- C2 (amended): the serialized journal text always stores entries
OLDEST-first: for every sequence of entries given to `serialize` in
newest-to-oldest order, the fragments of the output text parse, in file
order, to the entries in ascending (oldest-first) date order; and the
`add` example persists the dates in the order 2020-01-01, 2020-02-01,
2020-03-01. -/
theorem C2_file_order :
    (∀ es : List Entry, (∀ e ∈ es, SafeEntry e) → SortedDesc es →
      parseEach deserialize_entry (split_entries (strip (serialize es))) = .ok es.reverse ∧
      SortedAsc es.reverse) ∧
    Journal.add ⟨⟨2020, 2, 1, 0, 0⟩, ("b").data, []⟩
        (Journal.write [⟨⟨2020, 3, 1, 0, 0⟩, ("c").data, []⟩,
          ⟨⟨2020, 1, 1, 0, 0⟩, ("a").data, []⟩]) =
      .ok (Journal.write [⟨⟨2020, 3, 1, 0, 0⟩, ("c").data, []⟩,
        ⟨⟨2020, 2, 1, 0, 0⟩, ("b").data, []⟩, ⟨⟨2020, 1, 1, 0, 0⟩, ("a").data, []⟩]) := by
  constructor
  · intro es hs hd
    constructor
    · cases hE : es with
      | nil => rfl
      | cons e0 rest =>
        rw [← hE, serialize, split_entries_strip_serializeAsc es.reverse
          (by rw [hE]; simp) (fun x hx => hs x (List.mem_reverse.mp hx))]
        exact decorate_parse es.reverse (fun x hx => hs x (List.mem_reverse.mp hx))
    · exact List.chain'_reverse.mpr hd
  · rfl

/-- C2 (witness): the amended order statement at two concrete entries given
newest-first. -/
theorem C2_file_order_witness :
    parseEach deserialize_entry (split_entries (strip (serialize
        [⟨⟨2020, 3, 1, 0, 0⟩, ("c").data, []⟩, ⟨⟨2020, 1, 1, 0, 0⟩, ("a").data, []⟩]))) =
      .ok [⟨⟨2020, 1, 1, 0, 0⟩, ("a").data, []⟩, ⟨⟨2020, 3, 1, 0, 0⟩, ("c").data, []⟩] ∧
    SortedAsc [⟨⟨2020, 1, 1, 0, 0⟩, ("a").data, []⟩, ⟨⟨2020, 3, 1, 0, 0⟩, ("c").data, []⟩] :=
  C2_file_order.1
    [⟨⟨2020, 3, 1, 0, 0⟩, ("c").data, []⟩, ⟨⟨2020, 1, 1, 0, 0⟩, ("a").data, []⟩]
    (by decide)
    (by unfold SortedDesc
        simp only [List.chain'_cons, List.chain'_singleton, and_true]
        decide)

/-- C3: on a journal file holding `k` safe entries newest-first, `read`
with a positive `last_n = n` returns exactly `min n k` entries — the most
recent ones, still in descending date order — `read` with `last_n = None`
returns all of them, and deserialization is lazy: with a malformed fragment
at the start of the file (beyond the first `n` in deserialization order,
which runs from the end of the file), `read (last_n = n)` with `n ≤ k`
still succeeds with the same result. -/
theorem C3_read_last_n (es : List Entry) (hs : ∀ e ∈ es, SafeEntry e)
    (hd : SortedDesc es) :
    Journal.read none (Journal.write es) = .ok es ∧
    (∀ n : Nat, 0 < n →
      Journal.read (some (n : Int)) (Journal.write es) = .ok (es.take n) ∧
      (es.take n).length = min n es.length ∧ SortedDesc (es.take n)) ∧
    (∀ n : Nat, 0 < n → n ≤ es.length →
      Journal.read (some (n : Int))
        (fileHeader ++ (("## garbage\n\n").data ++ serialize es)) = .ok (es.take n)) := by
  refine ⟨read_none_write es hs, fun n hn => ⟨read_take_write es hs hn, ?_, ?_⟩,
    fun n hn hle => read_take_garbage es hs hn hle⟩
  · exact List.length_take ..
  · exact List.Chain'.take hd n

/-- C3 (witness): a 3-entry journal read with `last_n = 2`, with and
without a malformed fragment at the start of the file, and in full. -/
theorem C3_read_last_n_witness :
    Journal.read none (Journal.write
        [⟨⟨2020, 3, 1, 0, 0⟩, ("c").data, []⟩, ⟨⟨2020, 2, 1, 0, 0⟩, ("b").data, []⟩,
         ⟨⟨2020, 1, 1, 0, 0⟩, ("a").data, []⟩]) =
      .ok [⟨⟨2020, 3, 1, 0, 0⟩, ("c").data, []⟩, ⟨⟨2020, 2, 1, 0, 0⟩, ("b").data, []⟩,
           ⟨⟨2020, 1, 1, 0, 0⟩, ("a").data, []⟩] ∧
    Journal.read (some (2 : Int)) (Journal.write
        [⟨⟨2020, 3, 1, 0, 0⟩, ("c").data, []⟩, ⟨⟨2020, 2, 1, 0, 0⟩, ("b").data, []⟩,
         ⟨⟨2020, 1, 1, 0, 0⟩, ("a").data, []⟩]) =
      .ok [⟨⟨2020, 3, 1, 0, 0⟩, ("c").data, []⟩, ⟨⟨2020, 2, 1, 0, 0⟩, ("b").data, []⟩] ∧
    Journal.read (some (2 : Int)) (fileHeader ++ (("## garbage\n\n").data ++ serialize
        [⟨⟨2020, 3, 1, 0, 0⟩, ("c").data, []⟩, ⟨⟨2020, 2, 1, 0, 0⟩, ("b").data, []⟩,
         ⟨⟨2020, 1, 1, 0, 0⟩, ("a").data, []⟩])) =
      .ok [⟨⟨2020, 3, 1, 0, 0⟩, ("c").data, []⟩, ⟨⟨2020, 2, 1, 0, 0⟩, ("b").data, []⟩] := by
  have h := C3_read_last_n
    [⟨⟨2020, 3, 1, 0, 0⟩, ("c").data, []⟩, ⟨⟨2020, 2, 1, 0, 0⟩, ("b").data, []⟩,
     ⟨⟨2020, 1, 1, 0, 0⟩, ("a").data, []⟩]
    (by decide)
    (by unfold SortedDesc
        simp only [List.chain'_cons, List.chain'_singleton, and_true]
        exact ⟨by decide, by decide⟩)
  exact ⟨h.1, (h.2.1 2 (by decide)).1, h.2.2 2 (by decide) (by decide)⟩

/-- C4: each of the seven malformed fragment strings is rejected by
`deserialize_entry` with a `SerializationError`. -/
theorem C4_malformed_rejected :
    deserialize_entry (("## ").data) = .error () ∧
    deserialize_entry (("##  - no date").data) = .error () ∧
    deserialize_entry (("## 2019-01-01 09:30 - ").data) = .error () ∧
    deserialize_entry (("## 2019-01-01 09:30 no separator").data) = .error () ∧
    deserialize_entry (("## 2019-30-01 09:30 - invalid date").data) = .error () ∧
    deserialize_entry (("## 2019-01-01 - no time").data) = .error () ∧
    deserialize_entry (("## 2019-01-01 25:30 - invalid time").data) = .error () :=
  ⟨rfl, rfl, rfl, rfl, rfl, rfl, rfl⟩

/-- C5 (counterexample): the escaping adds TWO hashes per line, not one.
Serializing a body line `#x` yields the line `###x` (not the `##x` the
claim requires), and deserializing a fragment whose body line is `##x`
leaves it unchanged (the claim requires one `#` to be removed). -/
theorem C5_escape_cex :
    serialize_entry ⟨⟨2019, 1, 1, 9, 30⟩, ("t").data, ("#x").data⟩ =
      ("## 2019-01-01 09:30 - t\n###x\n").data ∧
    serialize_entry ⟨⟨2019, 1, 1, 9, 30⟩, ("t").data, ("#x").data⟩ ≠
      ("## 2019-01-01 09:30 - t\n##x\n").data ∧
    deserialize_entry (("## 2019-01-01 09:30 - t\n##x\n").data) =
      .ok ⟨⟨2019, 1, 1, 9, 30⟩, ("t").data, ("##x").data⟩ ∧
    (("##x").data : List Char) ≠ ("#x").data :=
  ⟨rfl, by decide, rfl, by decide⟩

/-- C5 (amended): `serialize_entry` prepends exactly TWO additional `#` to
every body line that starts with one or more `#` (a line starting `#`
becomes `###`) and leaves other body lines unchanged; deserializing the
serialized fragment removes exactly the added hashes, restoring the body. -/
theorem C5_escape (d : Date) (ti bo : List Char) (hs : SafeEntry ⟨d, ti, bo⟩)
    (hb : bo ≠ []) :
    splitLines (serialize_entry ⟨d, ti, bo⟩) =
      ((marker ++ (fmtDate d ++ (" - ").data ++ ti)) ::
        (splitLines bo).map
          (fun l => if l.head? = some '#' then '#' :: '#' :: l else l)) ++ [[]] ∧
    deserialize_entry (serialize_entry ⟨d, ti, bo⟩) = .ok ⟨d, ti, bo⟩ := by
  obtain ⟨hv, ht, htn, hte, hbe⟩ := hs
  dsimp only at htn
  constructor
  · have hAnl : '\n' ∉ marker ++ (fmtDate d ++ (" - ").data ++ ti) := by
      intro hm
      rcases List.mem_append.mp hm with hm0 | hm1
      · exact absurd hm0 (by decide)
      rcases List.mem_append.mp hm1 with hm2 | hm2
      · rcases List.mem_append.mp hm2 with hm3 | hm3
        · exact fmtDate_no_nl d hm3
        · exact sep_no_nl hm3
      · exact htn hm2
    rw [splitLines_serialize_entry,
      show marker ++ entryCore ⟨d, ti, bo⟩ =
        (marker ++ (fmtDate d ++ (" - ").data ++ ti)) ++ '\n' :: escapeBody bo from by
        rw [entryCore]; dsimp only; rw [if_neg hb, ← List.append_assoc],
      splitLines_append_nl, splitLines_of_no_nl hAnl, splitLines_escapeBody]
    rfl
  · rw [serialize_entry_eq]
    exact deserialize_entry_decorated _ ⟨hv, ht, htn, hte, hbe⟩ ['\n'] (by decide)

/-- C5 (witness): the escaping characterization at a concrete entry whose
body mixes escaped and plain lines. -/
theorem C5_escape_witness :
    splitLines (serialize_entry ⟨⟨2019, 1, 1, 9, 30⟩, ("t").data, ("#x\nplain\n##y").data⟩) =
      ((marker ++ (fmtDate ⟨2019, 1, 1, 9, 30⟩ ++ (" - ").data ++ ("t").data)) ::
        (splitLines (("#x\nplain\n##y").data)).map
          (fun l => if l.head? = some '#' then '#' :: '#' :: l else l)) ++ [[]] ∧
    deserialize_entry (serialize_entry ⟨⟨2019, 1, 1, 9, 30⟩, ("t").data, ("#x\nplain\n##y").data⟩) =
      .ok ⟨⟨2019, 1, 1, 9, 30⟩, ("t").data, ("#x\nplain\n##y").data⟩ :=
  C5_escape ⟨2019, 1, 1, 9, 30⟩ (("t").data) (("#x\nplain\n##y").data) (by decide) (by decide)

/-- C6 (counterexample): the active `MarkdownSerializer.split_entries` of
`pen.serializing` does NOT raise on text that does not begin with the
marker — it is a total function that silently discards everything before
the first marker line; on `"junk"` it returns the empty fragment list, and
a whole journal read of such a file succeeds with no entries. -/
theorem C6_split_cex :
    split_entries (("junk").data) = [] ∧
    Journal.read none (("file_type: pen-default-markdown\njunk").data) = .ok [] :=
  ⟨rfl, rfl⟩

/-- C6 (amended): it is the legacy `pen.io.journal` serializer whose
`_split_entries` raises `SerializationError` whenever the (left-)trimmed
journal text does not begin with the entry marker `"## "`. -/
theorem C6_split (t : List Char) (h : (lstrip t).take 3 ≠ marker) :
    io_split_entries t = .error () := by
  unfold io_split_entries
  rw [if_pos h]

/-- C6 (witness): the legacy serializer rejects `"junk"`. -/
theorem C6_split_witness :
    (lstrip (("junk").data)).take 3 ≠ marker ∧
    io_split_entries (("junk").data) = .error () :=
  ⟨by decide, C6_split _ (by decide)⟩

/-- C7: if the text coming back from the editor deserializes to strictly
fewer entries than were handed to the editor and the user declines the
confirmation, `edit` terminates without writing: the resulting file
content is exactly the previous content and nothing was written. -/
theorem C7_edit_abort (lastN : Option Int) (editorOut fileText : List Char)
    (es ed : List Entry)
    (hread : Journal.read none fileText = .ok es)
    (hed : parseEach deserialize_entry (deserializeFragments editorOut) = .ok ed)
    (hfewer : ed.length < (pyTake lastN es).length) :
    Journal.edit lastN false editorOut fileText = .ok (fileText, false) := by
  unfold Journal.edit
  rw [hread]
  dsimp only
  rw [hed]
  dsimp only
  rw [if_pos ⟨hfewer, rfl⟩]

/-- C7 (witness): editing a 1-entry journal where the editor returns an
empty text and the user declines leaves the file exactly as before. -/
theorem C7_edit_abort_witness :
    Journal.edit none false []
        (Journal.write [⟨⟨2019, 1, 1, 9, 30⟩, ("t").data, []⟩]) =
      .ok (Journal.write [⟨⟨2019, 1, 1, 9, 30⟩, ("t").data, []⟩], false) :=
  C7_edit_abort none [] (Journal.write [⟨⟨2019, 1, 1, 9, 30⟩, ("t").data, []⟩])
    [⟨⟨2019, 1, 1, 9, 30⟩, ("t").data, []⟩] [] (by rfl) (by rfl) (by decide)

/-- C8: on a non-empty journal, declining every per-entry confirmation
makes `delete` rewrite the file with exactly the same entry sequence
(entries beyond `last_n` are the untouched remainder), and reading the
rewritten file yields the same entries in the same order. -/
theorem C8_delete_declined (lastN : Option Int) (fileText : List Char) (es : List Entry)
    (hread : Journal.read none fileText = .ok es) (hne : es ≠ [])
    (hs : ∀ e ∈ es, SafeEntry e) :
    Journal.delete lastN (fun _ => false) fileText = .ok (Journal.write es, true) ∧
    Journal.read none (Journal.write es) = .ok es := by
  constructor
  · unfold Journal.delete
    rw [hread]
    dsimp only
    rw [if_neg hne]
    have hfil : (pyTake lastN es).filter (fun _ => !(false : Bool)) = pyTake lastN es := by
      simp
    rw [hfil, pyTake_append_pyDrop]
  · exact read_none_write es hs

/-- C8 (witness): declining all deletions on a concrete 2-entry journal. -/
theorem C8_delete_declined_witness :
    Journal.delete (some 1) (fun _ => false)
        (Journal.write [⟨⟨2020, 3, 1, 0, 0⟩, ("c").data, []⟩,
          ⟨⟨2020, 1, 1, 0, 0⟩, ("a").data, []⟩]) =
      .ok (Journal.write [⟨⟨2020, 3, 1, 0, 0⟩, ("c").data, []⟩,
        ⟨⟨2020, 1, 1, 0, 0⟩, ("a").data, []⟩], true) :=
  (C8_delete_declined (some 1) _
    [⟨⟨2020, 3, 1, 0, 0⟩, ("c").data, []⟩, ⟨⟨2020, 1, 1, 0, 0⟩, ("a").data, []⟩]
    (by rfl) (by decide) (by decide)).1

/-- C9 (counterexample): `parse_entry` does NOT split at a punctuation run
that is not followed by whitespace.  On `"a.b"` the code keeps the whole
text as the title with an empty body, while the claim's reading (whitespace
optional after the run) would give title `"a."` and body `"b"`. -/
theorem C9_split_cex :
    parseEntrySplit (("a.b").data) = (("a.b").data, []) ∧
    specSplitTitleBody false (("a.b").data) = (("a.").data, ("b").data) ∧
    parseEntrySplit (("a.b").data) ≠ specSplitTitleBody false (("a.b").data) :=
  ⟨rfl, rfl, by decide⟩

/-- C9 (amended): for every raw composed text, `parse_entry` splits at the
first position where either a punctuation run of `.`, `!`, `?` followed by
AT LEAST ONE whitespace character begins, or a bare newline — whichever
comes first; the text up to and including that separator, trimmed, is the
title candidate and the trimmed remainder the body; with no such separator
the whole trimmed text is the title and the body is empty. -/
theorem C9_split (t : List Char) : parseEntrySplit t = specSplitTitleBody true t :=
  parseEntrySplit_eq_specSplit t

/-- C10: `read` normalizes its `last_n` argument: `last_n = 0` behaves
exactly like `last_n = None` (all entries, not zero entries), and a
negative `last_n` behaves like its absolute value. -/
theorem C10_read_normalizes (fileText : List Char) :
    Journal.read (some 0) fileText = Journal.read none fileText ∧
    ∀ n : Int, Journal.read (some (-n)) fileText = Journal.read (some n) fileText := by
  constructor
  · rfl
  · intro n
    unfold Journal.read
    have h : normLastN (some (-n)) = normLastN (some n) := by
      unfold normLastN
      dsimp only
      by_cases h0 : n = 0
      · subst h0; norm_num
      · rw [if_neg (by omega), if_neg h0, Int.natAbs_neg]
    rw [h]

end Pen
